import Mathlib

/-!
# Verification of lodestone-centroid

Shallow embedding of `src/lib.rs` from the `lodestone-centroid` crate:
centroid computations for polygon features (signed-area weighted shoelace
loop over the first ring) and line-string features (point at half the
total path length, via the collaborator crates' `distance` and `along`).

Coordinates (Rust `f64`) are modelled as exact rationals `ℚ`.  The one
place where IEEE-754 behaviour matters to the spec is the final division
`x_sum / area`, which on finite operands with a zero denominator yields a
non-finite value (±∞ or NaN); we capture exactly that with the type `FVal`
(a finite rational or the non-finite marker) and the division `fdiv`.
Panics (`Option::unwrap` on `None`, `Vec::remove` out of bounds) are
modelled as `Option.none` results.
-/

set_option autoImplicit false

namespace Lodestone

/-- A 2-D coordinate pair: `.1` is `coord[0]` (x), `.2` is `coord[1]` (y). -/
abbrev Coord : Type := ℚ × ℚ

/-- Result value of an f64 computation: either a finite value (exact
rational, no rounding modelled) or a non-finite value (±∞ or NaN). -/
inductive FVal : Type
  | fin (q : ℚ) : FVal
  | nonfin : FVal
deriving DecidableEq, Repr

/-- IEEE-754 division of finite operands: finite quotient when the
denominator is nonzero, non-finite (±∞, or NaN for 0/0) otherwise. -/
def fdiv (x y : ℚ) : FVal :=
  if y = 0 then FVal.nonfin else FVal.fin (x / y)

/-- One iteration of the `for coord in ring` loop body of
`Centroid for FeaturePolygon::centroid` (src/lib.rs lines 39-48):
given the accumulator `(x_sum, y_sum, area)`, `prev` and the current
`coord`, produce the updated accumulator. -/
def step (acc : ℚ × ℚ × ℚ) (prev coord : Coord) : ℚ × ℚ × ℚ :=
  let f := coord.2 * prev.1 - prev.2 * coord.1
  (acc.1 + (coord.1 + prev.1) * f,
   acc.2.1 + (coord.2 + prev.2) * f,
   acc.2.2 + f * 3)

/-- The whole `for coord in ring` loop: left fold of `step` over the
remaining vertices, threading `prev` exactly as the Rust loop does. -/
def loop (acc : ℚ × ℚ × ℚ) (prev : Coord) : List Coord → ℚ × ℚ × ℚ
  | [] => acc
  | coord :: rest => loop (step acc prev coord) coord rest

/-- `Centroid for FeaturePolygon::centroid` (src/lib.rs lines 30-51).
The input is the polygon's ring list (`self.coordinates()`).
`first().unwrap()` panics on an empty ring list, and `ring.remove(0)`
panics on an empty first ring; both panics are modelled as `none`.
Otherwise `prev` is the removed head, the loop runs over the rest, and
the result is `(x_sum / area, y_sum / area)`. -/
def centroid (rings : List (List Coord)) : Option (FVal × FVal) :=
  match rings with
  | [] => none
  | ring :: _ =>
    match ring with
    | [] => none
    | prev :: rest =>
      let s := loop (0, 0, 0) prev rest
      some (fdiv s.1 s.2.2, fdiv s.2.1 s.2.2)

/-- `Centroid for FeatureLineString::centroid` (src/lib.rs lines 57-60),
parameterised by the collaborator crates' `distance` and `along`
operations (`lodestone_line_distance`, `lodestone_along`; not part of
this repository's sources).  The unit string "m" is fixed by the source. -/
def lineCentroidWith (dist : List Coord → String → ℚ)
    (along : List Coord → ℚ → String → Coord)
    (coords : List Coord) : Coord :=
  let half := dist coords "m" / 2
  along coords half "m"

/-! ## Spec-modelled collaborator layer

The `distance` and `along` functions live in the collaborator crates and
are not under `src/`; the following definitions model them from the
spec's words, parameterised by the segment-length metric (which the spec
says is inherited entirely from the collaborator). -/

/-- Linear interpolation at fraction `t` from `a` towards `b`. -/
def lerp (a b : Coord) (t : ℚ) : Coord :=
  (a.1 + t * (b.1 - a.1), a.2 + t * (b.2 - a.2))

/-- Modelled from the spec: the collaborator's `distance` function
("total path length of an ordered point sequence": the sum of
consecutive segment lengths), with the per-segment metric `segLen`
abstract. -/
def distSpec (segLen : Coord → Coord → ℚ) : List Coord → ℚ
  | a :: b :: t => segLen a b + distSpec segLen (b :: t)
  | _ => 0

/-- Modelled from the spec: the collaborator's `along` function ("walk
cumulative segment lengths from the path start; at the segment where
cumulative length first reaches or exceeds the budget, linearly
interpolate the exact point at the remaining fractional distance into
that segment").  Out-of-contract inputs (empty path, budget beyond the
path end) return the nearest path endpoint. -/
def alongSpec (segLen : Coord → Coord → ℚ) : List Coord → ℚ → Coord
  | [], _ => (0, 0)
  | [a], _ => a
  | a :: b :: t, d =>
    let len := segLen a b
    if d ≤ len then lerp a b (d / len)
    else alongSpec segLen (b :: t) (d - len)

/-- The line centroid with the spec-modelled collaborator layer plugged
into the source composition `lineCentroidWith`. -/
def lineCentroidSpec (segLen : Coord → Coord → ℚ) (coords : List Coord) : Coord :=
  lineCentroidWith (fun c _u => distSpec segLen c)
    (fun c d _u => alongSpec segLen c d) coords

/-! ## Sums over adjacent vertex pairs

The loop accumulators are sums of per-edge terms; `adjSum` makes that
explicit and is the workhorse for the algebraic claims. -/

/-- The cross-product term `f = coord.y * prev.x - prev.y * coord.x`
for the edge from `prev` to `coord`. -/
def fterm (prev coord : Coord) : ℚ :=
  coord.2 * prev.1 - prev.2 * coord.1

/-- The `x_sum` contribution `(coord.x + prev.x) * f` of one edge. -/
def xterm (prev coord : Coord) : ℚ :=
  (coord.1 + prev.1) * fterm prev coord

/-- The `y_sum` contribution `(coord.y + prev.y) * f` of one edge. -/
def yterm (prev coord : Coord) : ℚ :=
  (coord.2 + prev.2) * fterm prev coord

/-- Sum of `g prev coord` over the adjacent pairs of a vertex list. -/
def adjSum (g : Coord → Coord → ℚ) : List Coord → ℚ
  | p :: c :: t => g p c + adjSum g (c :: t)
  | _ => 0

theorem adjSum_nil (g : Coord → Coord → ℚ) : adjSum g [] = 0 := rfl

theorem adjSum_single (g : Coord → Coord → ℚ) (a : Coord) : adjSum g [a] = 0 := rfl

theorem adjSum_cons₂ (g : Coord → Coord → ℚ) (a b : Coord) (t : List Coord) :
    adjSum g (a :: b :: t) = g a b + adjSum g (b :: t) := rfl

/-- The loop computes exactly the three adjacent-pair sums (the `area`
accumulator adds `f * 3` per edge, hence the factor 3). -/
theorem loop_eq_adjSum (acc : ℚ × ℚ × ℚ) (prev : Coord) (rest : List Coord) :
    loop acc prev rest =
      (acc.1 + adjSum xterm (prev :: rest),
       acc.2.1 + adjSum yterm (prev :: rest),
       acc.2.2 + 3 * adjSum fterm (prev :: rest)) := by
  induction rest generalizing acc prev with
  | nil => simp [loop, adjSum]
  | cons c t ih =>
    rw [loop, ih]
    simp only [adjSum_cons₂, step, xterm, yterm, fterm]
    refine Prod.ext ?_ (Prod.ext ?_ ?_) <;> simp <;> ring

/-- `centroid` on a polygon whose first ring is nonempty, written with
the adjacent-pair sums. -/
theorem centroid_cons (ring : List Coord) (rest : List (List Coord))
    (h : ring ≠ []) :
    centroid (ring :: rest) =
      some (fdiv (adjSum xterm ring) (3 * adjSum fterm ring),
            fdiv (adjSum yterm ring) (3 * adjSum fterm ring)) := by
  match ring, h with
  | p :: r, _ =>
    show (match p :: r with
      | [] => none
      | prev :: rest₁ =>
        let s := loop (0, 0, 0) prev rest₁
        some (fdiv s.1 s.2.2, fdiv s.2.1 s.2.2)) = _
    simp only [loop_eq_adjSum]
    norm_num

/-! ### Reversing a ring negates every per-edge term -/

theorem adjSum_append_pair (g : Coord → Coord → ℚ) (a b : Coord) :
    ∀ l : List Coord, adjSum g (l ++ [a, b]) = adjSum g (l ++ [a]) + g a b
  | [] => by simp [adjSum]
  | [x] => by simp [adjSum]
  | x :: y :: t => by
    have ih := adjSum_append_pair g a b (y :: t)
    show g x y + adjSum g ((y :: t) ++ [a, b]) =
      g x y + adjSum g ((y :: t) ++ [a]) + g a b
    rw [ih]; ring

theorem adjSum_reverse (g : Coord → Coord → ℚ) :
    ∀ l : List Coord, adjSum g l.reverse = adjSum (fun p c => g c p) l
  | [] => by simp [adjSum]
  | [a] => by simp [adjSum]
  | a :: b :: t => by
    have ih := adjSum_reverse g (b :: t)
    have h1 : (a :: b :: t).reverse = t.reverse ++ [b, a] := by simp
    have h2 : t.reverse ++ [b] = (b :: t).reverse := by simp
    rw [h1, adjSum_append_pair, h2, ih, adjSum_cons₂]
    ring

theorem adjSum_neg (g : Coord → Coord → ℚ) :
    ∀ l : List Coord, adjSum (fun p c => -(g p c)) l = -(adjSum g l)
  | [] => by simp [adjSum]
  | [a] => by simp [adjSum]
  | a :: b :: t => by
    have ih := adjSum_neg g (b :: t)
    rw [adjSum_cons₂, adjSum_cons₂, ih]
    ring

theorem adjSum_swap_neg (g : Coord → Coord → ℚ)
    (hg : ∀ p c, g c p = -(g p c)) (l : List Coord) :
    adjSum (fun p c => g c p) l = -(adjSum g l) := by
  have h : (fun p c => g c p) = fun p c => -(g p c) := by
    funext p c; exact hg p c
  rw [h, adjSum_neg]

theorem fdiv_neg_neg (x y : ℚ) : fdiv (-x) (-y) = fdiv x y := by
  unfold fdiv
  rcases eq_or_ne y 0 with h | h
  · simp [h]
  · simp [h, neg_eq_zero, neg_div_neg_eq]

/-! ### Translating a ring: per-edge decomposition and telescoping -/

/-- Translation of a coordinate by the vector `(dx, dy)`. -/
def translate (dx dy : ℚ) (v : Coord) : Coord := (v.1 + dx, v.2 + dy)

theorem adjSum_map (g : Coord → Coord → ℚ) (m : Coord → Coord) :
    ∀ l : List Coord, adjSum g (l.map m) = adjSum (fun p c => g (m p) (m c)) l
  | [] => rfl
  | [_] => rfl
  | a :: b :: t => by
    have ih := adjSum_map g m (b :: t)
    simp only [List.map_cons] at ih ⊢
    rw [adjSum_cons₂, adjSum_cons₂, ih]

/-- If `g` differs from `h` edgewise by a multiple of the cross term plus
a telescoping difference `u c - u p`, then over a whole vertex chain the
difference is that multiple of the cross-term sum plus `u (last) - u (first)`. -/
theorem adjSum_shift (g h : Coord → Coord → ℚ) (k : ℚ) (u : Coord → ℚ)
    (hid : ∀ p c, g p c = h p c + k * fterm p c + (u c - u p)) :
    ∀ (a : Coord) (t : List Coord),
      adjSum g (a :: t) =
        adjSum h (a :: t) + k * adjSum fterm (a :: t) + (u (t.getLastD a) - u a)
  | _, [] => by simp [adjSum]
  | a, b :: t => by
    have ih := adjSum_shift g h k u hid b t
    rw [adjSum_cons₂, adjSum_cons₂, adjSum_cons₂, ih, hid a b,
      List.getLastD_cons]
    ring

/-- Telescoped part of the translated `x_sum` edge term. -/
def uX (dx dy : ℚ) (v : Coord) : ℚ :=
  dx * (v.1 * v.2) - dy * (v.1 * v.1) + 2 * dx * dx * v.2 - 2 * dx * dy * v.1

/-- Telescoped part of the translated `y_sum` edge term. -/
def uY (dx dy : ℚ) (v : Coord) : ℚ :=
  dx * (v.2 * v.2) - dy * (v.1 * v.2) + 2 * dx * dy * v.2 - 2 * dy * dy * v.1

/-- Telescoped part of the translated cross term `f`. -/
def uF (dx dy : ℚ) (v : Coord) : ℚ := dx * v.2 - dy * v.1

theorem xterm_translate (dx dy : ℚ) (p c : Coord) :
    xterm (translate dx dy p) (translate dx dy c) =
      xterm p c + (3 * dx) * fterm p c + (uX dx dy c - uX dx dy p) := by
  unfold xterm fterm translate uX; ring

theorem yterm_translate (dx dy : ℚ) (p c : Coord) :
    yterm (translate dx dy p) (translate dx dy c) =
      yterm p c + (3 * dy) * fterm p c + (uY dx dy c - uY dx dy p) := by
  unfold yterm fterm translate uY; ring

theorem fterm_translate (dx dy : ℚ) (p c : Coord) :
    fterm (translate dx dy p) (translate dx dy c) =
      fterm p c + 0 * fterm p c + (uF dx dy c - uF dx dy p) := by
  unfold fterm translate uF; ring

/-! ### The spec's description of the polygon loop (refinement target)

The following two definitions follow the words of spec §4.1 (not the
source), to be compared with the source embedding `centroid`. -/

/-- The spec's loop, with the named accumulators of §4.1 step 2:
for each subsequent vertex `cur`, set `f = cur.y * prev.x - prev.y * cur.x`,
add `(cur.x + prev.x) * f` to `xSum`, `(cur.y + prev.y) * f` to `ySum`,
`f * 3.0` to `area`, then advance `prev` to `cur`. -/
def specLoop (prev : Coord) (xSum ySum area : ℚ) : List Coord → ℚ × ℚ × ℚ
  | [] => (xSum, ySum, area)
  | cur :: rest =>
    let f := cur.2 * prev.1 - prev.2 * cur.1
    specLoop cur (xSum + (cur.1 + prev.1) * f) (ySum + (cur.2 + prev.2) * f)
      (area + f * 3) rest

/-- The spec's polygon centroid (§4.1): `prev = v0`, accumulators zero,
run the loop over the subsequent vertices, then a single final division
of each sum by `area`.  The spec assumes a nonempty ring; the empty case
is given an arbitrary value here. -/
def specPolygonCentroid (verts : List Coord) : FVal × FVal :=
  match verts with
  | [] => (FVal.nonfin, FVal.nonfin)
  | v0 :: rest =>
    let s := specLoop v0 0 0 0 rest
    (fdiv s.1 s.2.2, fdiv s.2.1 s.2.2)

theorem specLoop_eq_loop (prev : Coord) (xSum ySum area : ℚ)
    (rest : List Coord) :
    specLoop prev xSum ySum area rest = loop (xSum, ySum, area) prev rest := by
  induction rest generalizing prev xSum ySum area with
  | nil => rfl
  | cons c r ih =>
    simp only [specLoop, loop, step]
    exact ih c _ _ _

/-! ### State-threaded versions for the frame claim

`centroidTracked` re-expresses the polygon centroid threading the
feature through: `self.coordinates()` and `first()` are reads, the
`to_vec()` copy is the only thing `remove(0)` and the loop touch, and
the feature is returned unchanged next to the freshly built point. -/

def centroidTracked (self : List (List Coord)) :
    Option (FVal × FVal) × List (List Coord) :=
  match self with
  | [] => (none, [])
  | ring₀ :: rest₀ =>
    match ring₀ with
    | [] => (none, ring₀ :: rest₀)
    | prev :: ringRest =>
      let s := loop (0, 0, 0) prev ringRest
      (some (fdiv s.1 s.2.2, fdiv s.2.1 s.2.2), ring₀ :: rest₀)

/-- State-threaded version of the line-string centroid: the coordinate
sequence is only read by the collaborator calls and returned unchanged. -/
def lineCentroidTracked (dist : List Coord → String → ℚ)
    (along : List Coord → ℚ → String → Coord)
    (coords : List Coord) : Coord × List Coord :=
  (along coords (dist coords "m" / 2) "m", coords)

end Lodestone

namespace Lodestone

/-- C3: the closed square ring `[(0,0),(0,2),(2,2),(2,0),(0,0)]` has
centroid exactly `(1, 1)`. -/
theorem square_centroid :
    centroid [[((0 : ℚ), (0 : ℚ)), (0, 2), (2, 2), (2, 0), (0, 0)]] =
      some (FVal.fin 1, FVal.fin 1) := by
  norm_num [centroid, loop, step, fdiv]

/-- C6: only the first ring of the polygon's ring list participates:
two polygons with the same first ring and arbitrary further rings get
the same centroid. -/
theorem centroid_ignores_holes (ring : List Coord)
    (rest₁ rest₂ : List (List Coord)) :
    centroid (ring :: rest₁) = centroid (ring :: rest₂) := by
  cases ring <;> rfl

/-- C4: winding invariance.  For a valid closed ring (first vertex equal
to last, non-zero computed signed area) the centroid of the reversed
ring equals the centroid of the ring: the result does not depend on the
winding direction. -/
theorem centroid_reverse (v : Coord) (t : List Coord)
    (hclosed : (v :: t).getLast (by simp) = v)
    (harea : 3 * adjSum fterm (v :: t) ≠ 0) :
    centroid [(v :: t).reverse] = centroid [v :: t] := by
  have hx : ∀ p c : Coord, xterm c p = -(xterm p c) := by
    intro p c; unfold xterm fterm; ring
  have hy : ∀ p c : Coord, yterm c p = -(yterm p c) := by
    intro p c; unfold yterm fterm; ring
  have hf : ∀ p c : Coord, fterm c p = -(fterm p c) := by
    intro p c; unfold fterm; ring
  rw [centroid_cons _ _ (by simp), centroid_cons _ _ (by simp),
    adjSum_reverse, adjSum_reverse, adjSum_reverse,
    adjSum_swap_neg xterm hx, adjSum_swap_neg yterm hy,
    adjSum_swap_neg fterm hf,
    show (3 : ℚ) * -(adjSum fterm (v :: t)) = -(3 * adjSum fterm (v :: t)) by
      ring,
    fdiv_neg_neg, fdiv_neg_neg]

/-- Witness for `centroid_reverse`: the square ring of C3, reversed. -/
theorem centroid_reverse_witness :
    centroid [([((0 : ℚ), (0 : ℚ)), (0, 2), (2, 2), (2, 0), (0, 0)]).reverse] =
      centroid [[((0 : ℚ), (0 : ℚ)), (0, 2), (2, 2), (2, 0), (0, 0)]] :=
  centroid_reverse (0, 0) [(0, 2), (2, 2), (2, 0), (0, 0)] (by simp)
    (by norm_num [adjSum_cons₂, adjSum_single, fterm])

/-- C8: translation covariance.  For a valid closed ring with non-zero
computed signed area, translating every vertex by `(dx, dy)` translates
the (finite) centroid by exactly `(dx, dy)`. -/
theorem centroid_translate (v : Coord) (t : List Coord) (dx dy : ℚ)
    (hclosed : t.getLastD v = v)
    (harea : 3 * adjSum fterm (v :: t) ≠ 0) :
    ∃ x y : ℚ,
      centroid [v :: t] = some (FVal.fin x, FVal.fin y) ∧
      centroid [(v :: t).map (translate dx dy)] =
        some (FVal.fin (x + dx), FVal.fin (y + dy)) := by
  have hS : adjSum fterm ((v :: t).map (translate dx dy)) =
      adjSum fterm (v :: t) := by
    rw [adjSum_map,
      adjSum_shift _ fterm 0 (uF dx dy) (fterm_translate dx dy) v t, hclosed]
    ring
  have hX : adjSum xterm ((v :: t).map (translate dx dy)) =
      adjSum xterm (v :: t) + dx * (3 * adjSum fterm (v :: t)) := by
    rw [adjSum_map,
      adjSum_shift _ xterm (3 * dx) (uX dx dy) (xterm_translate dx dy) v t,
      hclosed]
    ring
  have hY : adjSum yterm ((v :: t).map (translate dx dy)) =
      adjSum yterm (v :: t) + dy * (3 * adjSum fterm (v :: t)) := by
    rw [adjSum_map,
      adjSum_shift _ yterm (3 * dy) (uY dx dy) (yterm_translate dx dy) v t,
      hclosed]
    ring
  refine ⟨adjSum xterm (v :: t) / (3 * adjSum fterm (v :: t)),
    adjSum yterm (v :: t) / (3 * adjSum fterm (v :: t)), ?_, ?_⟩
  · rw [centroid_cons _ _ (by simp)]
    unfold fdiv
    rw [if_neg harea, if_neg harea]
  · rw [show (v :: t).map (translate dx dy) =
        translate dx dy v :: t.map (translate dx dy) from rfl,
      centroid_cons _ _ (by simp),
      show translate dx dy v :: t.map (translate dx dy) =
        (v :: t).map (translate dx dy) from rfl, hX, hY, hS]
    unfold fdiv
    rw [if_neg harea, if_neg harea]
    have hdx : (adjSum xterm (v :: t) + dx * (3 * adjSum fterm (v :: t))) /
        (3 * adjSum fterm (v :: t)) =
        adjSum xterm (v :: t) / (3 * adjSum fterm (v :: t)) + dx := by
      field_simp
    have hdy : (adjSum yterm (v :: t) + dy * (3 * adjSum fterm (v :: t))) /
        (3 * adjSum fterm (v :: t)) =
        adjSum yterm (v :: t) / (3 * adjSum fterm (v :: t)) + dy := by
      field_simp
    rw [hdx, hdy]

/-- Witness for `centroid_translate`: the square ring of C3 translated
by `(5, 7)`. -/
theorem centroid_translate_witness :
    ∃ x y : ℚ,
      centroid [[((0 : ℚ), (0 : ℚ)), (0, 2), (2, 2), (2, 0), (0, 0)]] =
        some (FVal.fin x, FVal.fin y) ∧
      centroid [([((0 : ℚ), (0 : ℚ)), (0, 2), (2, 2), (2, 0), (0, 0)]).map
          (translate 5 7)] =
        some (FVal.fin (x + 5), FVal.fin (y + 7)) :=
  centroid_translate (0, 0) [(0, 2), (2, 2), (2, 0), (0, 0)] 5 7 rfl
    (by norm_num [adjSum_cons₂, adjSum_single, fterm])

/-- C1: on a polygon whose first ring is a closed nonempty vertex list,
the source's `centroid` returns exactly the point described by the
spec's loop (`specPolygonCentroid`), including the single final
division of each sum by `area`. -/
theorem centroid_eq_specPolygonCentroid (v : Coord) (t : List Coord)
    (rest : List (List Coord)) (hclosed : t.getLastD v = v) :
    centroid ((v :: t) :: rest) = some (specPolygonCentroid (v :: t)) := by
  simp only [centroid, specPolygonCentroid, specLoop_eq_loop]

/-- Witness for `centroid_eq_specPolygonCentroid`: the C3 square ring. -/
theorem centroid_eq_specPolygonCentroid_witness :
    centroid [[((0 : ℚ), (0 : ℚ)), (0, 2), (2, 2), (2, 0), (0, 0)]] =
      some (specPolygonCentroid
        [((0 : ℚ), (0 : ℚ)), (0, 2), (2, 2), (2, 0), (0, 0)]) :=
  centroid_eq_specPolygonCentroid (0, 0) [(0, 2), (2, 2), (2, 0), (0, 0)] []
    rfl

/-- C5: when the computed signed area of the first ring is zero, the
division is performed anyway: the call still returns a point (`some`,
no guard, error value or panic), and both coordinates are non-finite. -/
theorem centroid_zero_area (v : Coord) (t : List Coord)
    (rest : List (List Coord))
    (harea : 3 * adjSum fterm (v :: t) = 0) :
    centroid ((v :: t) :: rest) = some (FVal.nonfin, FVal.nonfin) := by
  rw [centroid_cons _ _ (by simp), harea]
  simp [fdiv]

/-- Witness for `centroid_zero_area`: a ring of collinear points. -/
theorem centroid_zero_area_witness :
    centroid [[((0 : ℚ), (0 : ℚ)), (1, 1), (2, 2), (0, 0)]] =
      some (FVal.nonfin, FVal.nonfin) :=
  centroid_zero_area (0, 0) [(1, 1), (2, 2), (0, 0)] []
    (by norm_num [adjSum_cons₂, adjSum_single, fterm])

/-- C2: the line-string centroid is exactly the composition
`along(path, distance(path, "m") / 2, "m")`, whatever the collaborator
`distance`/`along` implementations are; the unit is fixed to `"m"`. -/
theorem lineCentroid_eq_composition
    (dist : List Coord → String → ℚ)
    (along : List Coord → ℚ → String → Coord)
    (coords : List Coord) (hlen : 2 ≤ coords.length) :
    lineCentroidWith dist along coords =
      along coords (dist coords "m" / 2) "m" := rfl

/-- Witness for `lineCentroid_eq_composition` with concrete
collaborators and a two-point path. -/
theorem lineCentroid_eq_composition_witness :
    lineCentroidWith (fun _c _u => (6 : ℚ)) (fun _c d _u => (d, d))
      [((0 : ℚ), (0 : ℚ)), (1, 0)] =
      (fun _c d _u => (d, d)) [((0 : ℚ), (0 : ℚ)), (1, 0)]
        ((fun _c _u => (6 : ℚ)) [((0 : ℚ), (0 : ℚ)), (1, 0)] "m" / 2) "m" :=
  lineCentroid_eq_composition (fun _c _u => (6 : ℚ)) (fun _c d _u => (d, d))
    [((0 : ℚ), (0 : ℚ)), (1, 0)] (by decide)

/-- C7: a path of zero total length gives `half = 0`, and the
(spec-modelled) `along` returns the path's start point; the result is
well-defined and no division by zero occurs in this component. -/
theorem lineCentroid_zero_length (segLen : Coord → Coord → ℚ)
    (v : Coord) (t : List Coord)
    (hlen : 2 ≤ (v :: t).length)
    (hnn : ∀ a b : Coord, 0 ≤ segLen a b)
    (hzero : distSpec segLen (v :: t) = 0) :
    lineCentroidSpec segLen (v :: t) = v := by
  have hrfl : lineCentroidSpec segLen (v :: t) =
      alongSpec segLen (v :: t) (distSpec segLen (v :: t) / 2) := rfl
  rw [hrfl, hzero, zero_div]
  cases t with
  | nil => norm_num at hlen
  | cons b t₂ =>
    rw [alongSpec]
    rw [if_pos (hnn v b), zero_div]
    simp [lerp]

/-- Witness for `lineCentroid_zero_length`: the two-point path that
stays at `(3, 4)`, with the zero metric. -/
theorem lineCentroid_zero_length_witness :
    lineCentroidSpec (fun _a _b => (0 : ℚ)) [((3 : ℚ), (4 : ℚ)), (3, 4)] =
      ((3 : ℚ), (4 : ℚ)) :=
  lineCentroid_zero_length (fun _a _b => (0 : ℚ)) (3, 4) [(3, 4)]
    (by decide) (fun _a _b => le_refl 0) (by simp [distSpec])

/-- C9: both centroid calls are read-only: state-threaded versions of
the two functions return the input feature unchanged together with the
same freshly built point the pure embedding computes. -/
theorem centroid_calls_preserve_input (self : List (List Coord))
    (dist : List Coord → String → ℚ)
    (along : List Coord → ℚ → String → Coord)
    (coords : List Coord) :
    centroidTracked self = (centroid self, self) ∧
    lineCentroidTracked dist along coords =
      (lineCentroidWith dist along coords, coords) := by
  constructor
  · match self with
    | [] => rfl
    | [] :: rest => rfl
    | (p :: r) :: rest => rfl
  · rfl

/-- C10 as stated is false: `centroid` is not total on every polygon
with a nonempty ring list — a polygon whose first ring is the empty
list still hits the `ring.remove(0)` panic. -/
theorem centroid_empty_first_ring_breaks_totality :
    ¬ ((centroid [([] : List Coord)]).isSome ↔
        ([([] : List Coord)] : List (List Coord)) ≠ []) := by
  intro h
  have h1 : centroid [([] : List Coord)] = none := rfl
  rw [h1] at h
  simp at h

/-- C10 (amended): `centroid` returns a point exactly when the ring
list is nonempty and its first ring is nonempty; moreover a one-point
first ring makes the loop body run zero times, so the area is zero and
the result point is non-finite. -/
theorem centroid_totality :
    (∀ rings : List (List Coord),
        (centroid rings).isSome ↔ ∃ r t, rings = r :: t ∧ r ≠ []) ∧
    (∀ (v : Coord) (rest : List (List Coord)),
        centroid ([v] :: rest) = some (FVal.nonfin, FVal.nonfin)) := by
  constructor
  · intro rings
    match rings with
    | [] => simp [centroid]
    | [] :: rest => simp [centroid]
    | (p :: r) :: rest => simp [centroid]
  · intro v rest
    rw [centroid_cons _ _ (by simp)]
    simp [adjSum_single, fdiv]

end Lodestone
